import Mathlib

/-!
SmartPointers.h: lifetime and ownership semantics of `main`.

The program under study is a single translation unit: a class `Entity` whose
constructor, destructor and `Print` member each write one fixed line to
`std::cout`, and a `main` that exercises `std::unique_ptr`, `std::shared_ptr`
and `std::weak_ptr` on it.

The embedding is a small-step machine over an explicit state:

* `State.out`    : the sequence of writes to `std::cout`, each tagged with the
                   function that made it;
* `State.heap`   : one flag per allocated `Entity`, true while it is alive;
* `State.blocks` : the control blocks of shared ownership (use count and
                   number of weak observers);
* `State.scopes` : the stack of scopes with their local variables, the most
                   recently declared first;
* `State.status` : the value returned by `main`, once it has returned.

`main` is the list of the statements of the source, in order.  The rules of the
language that the source relies on (a local is destroyed when its scope is
left, locals of one scope in the reverse of their declaration order, `return`
leaves every scope of the function) are in `step`; the behaviour of the three
smart pointers of the standard library is in `shared_copy`, `weak_from_shared`,
`lock`, `use_count` and `destroy`.  The two counters of a control block are
32-bit integers in the library, and so they are here: `incr` and `decr` wrap
around, and `use_count` reads the owner counter as a signed integer.

The theorems come in three groups: auxiliary lemmas, the properties C1 to C10
of the run of `main`, and the invariants of the machine.  Every step keeps the
owner counters equal to the numbers of owners in scope modulo 2 to the power
32 (`Counted`); as long as fewer than 2 to the power 32 owners of a block are
in scope, every step keeps the objects under shared ownership alive (`Safe`).
-/

namespace SmartPointers

/-- The five local variables of `main`, under their names in the source. -/
inductive Var
  | uniqueEntity
  | sharedEntity
  | anotherShared
  | weakEntity
  | lockedEntity
deriving DecidableEq, Repr

/-- Who wrote to `std::cout`: `main` itself, or a member function of the
`Entity` with the given identity. -/
inductive Origin
  | main
  | ctor (self : Nat)
  | dtor (self : Nat)
  | Print (self : Nat)
deriving DecidableEq, Repr

/-- One write to `std::cout`. -/
structure Event where
  origin : Origin
  text : String
deriving DecidableEq, Repr

/-- Control block of a shared `Entity`: the object it manages and its two
counters, one for the `shared_ptr` owners (read by `use_count`) and one for the
`weak_ptr` observers.  The library keeps each counter in a 32-bit `int`
(`_Atomic_word`); here a counter is the natural number below `wordSize` that
has the same 32 bits. -/
structure CtrlBlock where
  obj : Nat
  strong : Nat
  weak : Nat
deriving DecidableEq, Repr

/-- The value held by a local variable.  A smart pointer is either null
(`none`) or refers to an `Entity` (for `unique_ptr`) or to a control block
(for `shared_ptr` and `weak_ptr`). -/
inductive Handle
  | unique_ptr (p : Option Nat)
  | shared_ptr (cb : Option Nat)
  | weak_ptr (cb : Option Nat)
deriving DecidableEq, Repr

/-- Machine state. -/
structure State where
  out : List Event
  heap : List Bool
  blocks : List CtrlBlock
  scopes : List (List (Var × Handle))
  status : Option Int
deriving DecidableEq, Repr

/-- The state in which `main` is entered: nothing written, nothing allocated,
one empty scope (the function body). -/
def State.start : State :=
  { out := [], heap := [], blocks := [], scopes := [[]], status := none }

/-- Append one write to the output, that is `std::cout << text`. -/
def State.write (s : State) (o : Origin) (text : String) : State :=
  { s with out := s.out ++ [⟨o, text⟩] }

/-- Everything written to standard output so far, as one string. -/
def State.stdout (s : State) : String :=
  String.join (s.out.map Event.text)

/-- Whether the `Entity` with identity `p` has been constructed and not yet
destroyed. -/
def State.alive (s : State) (p : Nat) : Bool :=
  s.heap[p]? = some true

/-- Innermost binding of a variable in one scope. -/
def lookupIn (x : Var) : List (Var × Handle) → Option Handle
  | [] => none
  | (y, h) :: rest => if y = x then some h else lookupIn x rest

/-- Innermost binding of a variable in a stack of scopes. -/
def lookupScopes (x : Var) : List (List (Var × Handle)) → Option Handle
  | [] => none
  | f :: fs =>
    match lookupIn x f with
    | some h => some h
    | none => lookupScopes x fs

/-- The handle a variable currently holds, if it is in scope. -/
def State.lookup (s : State) (x : Var) : Option Handle :=
  lookupScopes x s.scopes

/-- Declare a local variable in the innermost scope. -/
def State.declare (s : State) (x : Var) (h : Handle) : Option State :=
  match s.scopes with
  | [] => none
  | f :: fs => some { s with scopes := ((x, h) :: f) :: fs }

namespace Entity

/-- Constructor body: `Entity() { std::cout << "Entity Created\n"; }`. -/
def ctor (self : Nat) (s : State) : State :=
  s.write (.ctor self) "Entity Created\n"

/-- Destructor body: `~Entity() { std::cout << "Entity Destroyed\n"; }`. -/
def dtor (self : Nat) (s : State) : State :=
  s.write (.dtor self) "Entity Destroyed\n"

/-- Member `void Print() { std::cout << "Hello from Entity\n"; }`. -/
def Print (self : Nat) (s : State) : State :=
  s.write (.Print self) "Hello from Entity\n"

end Entity

/-- Allocation `new Entity()`: a fresh object is allocated and its constructor
runs.  Returns the identity of the new object. -/
def new_Entity (s : State) : Nat × State :=
  (s.heap.length, Entity.ctor s.heap.length { s with heap := s.heap ++ [true] })

/-- Deallocation `delete p`: the destructor runs, then the object is gone.
Deleting an object that is not alive is undefined behaviour (`none`). -/
def delete_Entity (p : Nat) (s : State) : Option State :=
  if s.alive p then
    some { Entity.dtor p s with heap := s.heap.set p false }
  else none

/-- A fresh control block for the object `p`, with one owner and no observer.
Returns the identity of the new block. -/
def new_control_block (p : Nat) (s : State) : Nat × State :=
  (s.blocks.length, { s with blocks := s.blocks ++ [CtrlBlock.mk p 1 0] })

/-- Number of values of a counter of a control block: 2 to the power 32. -/
def wordSize : Nat := 4294967296

/-- Add one to a counter; the 32-bit addition wraps around. -/
def incr (w : Nat) : Nat := (w + 1) % wordSize

/-- Subtract one from a counter; the 32-bit subtraction wraps around. -/
def decr (w : Nat) : Nat := (w + (wordSize - 1)) % wordSize

/-- The value of a counter read as a signed 32-bit `int`. -/
def signed (w : Nat) : Int :=
  if w < 2147483648 then (w : Int) else (w : Int) - 4294967296

/-- The owner counter of the control block `cb` as stored; 0 for a null
`shared_ptr`. -/
def use_word (s : State) : Option Nat → Nat
  | none => 0
  | some b =>
    match s.blocks[b]? with
    | some c => c.strong
    | none => 0

/-- Member `use_count()` of the `shared_ptr` on control block `cb`: the owner
counter, read as a signed integer and returned as a `long`; a null
`shared_ptr` has use count 0. -/
def use_count (s : State) (cb : Option Nat) : Int :=
  signed (use_word s cb)

/-- Copy construction of a `shared_ptr`: the copy shares the control block and
the owner counter is incremented (32-bit, wrapping); copying a null pointer
gives a null pointer. -/
def shared_copy (s : State) : Option Nat → Option (Handle × State)
  | none => some (.shared_ptr none, s)
  | some b =>
    match s.blocks[b]? with
    | some c =>
      some (.shared_ptr (some b),
        { s with blocks := s.blocks.set b { c with strong := incr c.strong } })
    | none => none

/-- Construction of a `weak_ptr` from a `shared_ptr`: the observer counter of
the control block is incremented, the owner counter is left alone. -/
def weak_from_shared (s : State) : Option Nat → Option (Handle × State)
  | none => some (.weak_ptr none, s)
  | some b =>
    match s.blocks[b]? with
    | some c =>
      some (.weak_ptr (some b),
        { s with blocks := s.blocks.set b { c with weak := incr c.weak } })
    | none => none

/-- Member `lock()` of a `weak_ptr`: a null `shared_ptr` when the observer is
empty or the owner counter reads 0, otherwise a new owner of the observed
object, for which the owner counter is incremented (32-bit, wrapping).
(When the incremented counter reads 0, which takes 4294967295 owners, the
library gives the new owner a null stored pointer; handles of that kind are
not represented, and no theorem below is about that case.) -/
def lock (s : State) : Option Nat → Option (Handle × State)
  | none => some (.shared_ptr none, s)
  | some b =>
    match s.blocks[b]? with
    | some c =>
      if c.strong = 0 then some (.shared_ptr none, s)
      else
        some (.shared_ptr (some b),
          { s with blocks := s.blocks.set b { c with strong := incr c.strong } })
    | none => none

/-- Contextual conversion of a smart pointer to `bool`: true iff not null.
(A `weak_ptr` has no such conversion; the machine never asks for it.) -/
def Handle.toBool : Handle → Bool
  | .unique_ptr p => p.isSome
  | .shared_ptr cb => cb.isSome
  | .weak_ptr _ => false

/-- Destructor of a smart pointer.
* `unique_ptr`: deletes the object it owns, if any.
* `shared_ptr`: decrements the owner counter (32-bit, wrapping); the owner
  that finds the counter at 1, and so brings it to 0, deletes the object, at
  once.
* `weak_ptr`: decrements the observer counter; the object is not touched. -/
def destroy (s : State) : Handle → Option State
  | .unique_ptr none => some s
  | .unique_ptr (some p) => delete_Entity p s
  | .shared_ptr none => some s
  | .shared_ptr (some b) =>
    match s.blocks[b]? with
    | some c =>
      if c.strong = 1 then
        delete_Entity c.obj { s with blocks := s.blocks.set b { c with strong := 0 } }
      else
        some { s with blocks := s.blocks.set b { c with strong := decr c.strong } }
    | none => none
  | .weak_ptr none => some s
  | .weak_ptr (some b) =>
    match s.blocks[b]? with
    | some c => some { s with blocks := s.blocks.set b { c with weak := decr c.weak } }
    | none => none

/-- The statement forms that occur in `main`. -/
inductive Stmt
  /-- Statement `std::cout << text;`. -/
  | cout (text : String)
  /-- Statement `auto x = std::make_unique<Entity>();`. -/
  | make_unique (x : Var)
  /-- Statement `x->Print();`. -/
  | arrow_Print (x : Var)
  /-- Statement `auto x = std::make_shared<Entity>();`. -/
  | make_shared (x : Var)
  /-- Statement `auto x = y;` for a `shared_ptr` variable `y`. -/
  | copy_init (x y : Var)
  /-- Statement `std::cout << before << y.use_count() << after;`. -/
  | cout_use_count (before : String) (y : Var) (after : String)
  /-- Statement `std::weak_ptr<Entity> x = y;` for a `shared_ptr` variable `y`. -/
  | weak_init (x y : Var)
  /-- Statement `if (auto x = w.lock()) { thn } else { els }`. -/
  | if_lock (x w : Var) (thn els : List Stmt)
  /-- Statement `return code;`. -/
  | ret (code : Int)

/-- What remains to be executed: a statement of the source, the entry of a
compound statement, or the exit of the innermost scope. -/
inductive Instr
  | stmt (s : Stmt)
  | enter
  | leave

/-- What a step did, as far as the lifetime of locals is concerned. -/
inductive Action
  | write
  | declare (x : Var)
  | call (x : Var)
  | release (x : Var)
  | enter
  | leave
  | ret
deriving DecidableEq, Repr

/-- A machine configuration: the state and the instructions still to run. -/
structure Config where
  st : State
  code : List Instr

/-- Execute one statement in state `s` with the instructions `k` after it. -/
def exec (s : State) (k : List Instr) : Stmt → Option (Action × Config)
  | .cout text => some (.write, ⟨s.write .main text, k⟩)
  | .make_unique x =>
    match (new_Entity s).2.declare x (.unique_ptr (some (new_Entity s).1)) with
    | some s1 => some (.declare x, ⟨s1, k⟩)
    | none => none
  | .arrow_Print x =>
    match s.lookup x with
    | some (.unique_ptr (some p)) =>
      if s.alive p then some (.call x, ⟨Entity.Print p s, k⟩) else none
    | _ => none
  | .make_shared x =>
    match (new_control_block (new_Entity s).1 (new_Entity s).2).2.declare x
        (.shared_ptr (some (new_control_block (new_Entity s).1 (new_Entity s).2).1)) with
    | some s1 => some (.declare x, ⟨s1, k⟩)
    | none => none
  | .copy_init x y =>
    match s.lookup y with
    | some (.shared_ptr cb) =>
      match shared_copy s cb with
      | some (h, s1) =>
        match s1.declare x h with
        | some s2 => some (.declare x, ⟨s2, k⟩)
        | none => none
      | none => none
    | _ => none
  | .cout_use_count before y after =>
    match s.lookup y with
    | some (.shared_ptr cb) =>
      some (.write, ⟨s.write .main (before ++ toString (use_count s cb) ++ after), k⟩)
    | _ => none
  | .weak_init x y =>
    match s.lookup y with
    | some (.shared_ptr cb) =>
      match weak_from_shared s cb with
      | some (h, s1) =>
        match s1.declare x h with
        | some s2 => some (.declare x, ⟨s2, k⟩)
        | none => none
      | none => none
    | _ => none
  | .if_lock x w thn els =>
    match s.lookup w with
    | some (.weak_ptr cb) =>
      match lock s cb with
      | some (h, s1) =>
        some (.declare x,
          ⟨{ s1 with scopes := [(x, h)] :: s1.scopes },
           .enter :: ((if h.toBool then thn else els).map Instr.stmt
              ++ .leave :: .leave :: k)⟩)
      | none => none
    | _ => none
  | .ret code =>
    some (.ret, ⟨{ s with status := some code }, List.replicate s.scopes.length .leave⟩)

/-- One step of the machine.  `none` when there is nothing left to run, or when
the next instruction has undefined behaviour.

Leaving a scope takes one step per local, the most recently declared first,
each step running the destructor of that local; a last step drops the scope. -/
def step (c : Config) : Option (Action × Config) :=
  match c.code with
  | [] => none
  | .stmt s :: k => exec c.st k s
  | .enter :: k => some (.enter, ⟨{ c.st with scopes := [] :: c.st.scopes }, k⟩)
  | .leave :: k =>
    match c.st.scopes with
    | [] => none
    | [] :: fs => some (.leave, ⟨{ c.st with scopes := fs }, k⟩)
    | ((x, h) :: f) :: fs =>
      match destroy { c.st with scopes := f :: fs } h with
      | some s1 => some (.release x, ⟨s1, .leave :: k⟩)
      | none => none

/-- One step of a run, with the states before and after it. -/
structure Transition where
  before : State
  act : Action
  after : State
deriving DecidableEq, Repr

/-- The steps taken from `c`, at most `fuel` of them. -/
def steps : Nat → Config → List Transition
  | 0, _ => []
  | fuel + 1, c =>
    match step c with
    | some (a, c1) => ⟨c.st, a, c1.st⟩ :: steps fuel c1
    | none => []

/-- Run from `c` to completion: the final state once no instruction is left,
`none` on undefined behaviour or when the fuel runs out first. -/
def run : Nat → Config → Option State
  | 0, c => if c.code.isEmpty then some c.st else none
  | fuel + 1, c =>
    if c.code.isEmpty then some c.st
    else
      match step c with
      | some (_, c1) => run fuel c1
      | none => none

/-- The conditional of the weak-pointer section:
`if (auto lockedEntity = weakEntity.lock()) { std::cout << "Entity is alive\n"; }
 else { std::cout << "Entity is destroyed\n"; }`. -/
def weakIf : Stmt :=
  .if_lock .lockedEntity .weakEntity
    [.cout "Entity is alive\n"]
    [.cout "Entity is destroyed\n"]

/-- The body of `main`, statement by statement. -/
def main : List Stmt :=
  [ .cout "\n=== Unique Pointer Example ===\n",
    .make_unique .uniqueEntity,
    .arrow_Print .uniqueEntity,
    .cout "\n=== Shared Pointer Example ===\n",
    .make_shared .sharedEntity,
    .copy_init .anotherShared .sharedEntity,
    .cout_use_count "Reference Count: " .sharedEntity "\n",
    .cout "\n=== Weak Pointer Example ===\n",
    .weak_init .weakEntity .sharedEntity,
    weakIf,
    .ret 0 ]

/-- The configuration in which `main` starts. -/
def mainConfig : Config :=
  ⟨State.start, main.map Instr.stmt⟩

/-- Number of steps that is enough for `main` to run to completion. -/
def mainFuel : Nat := 32

/-- The steps of the run of `main`. -/
def mainSteps : List Transition :=
  steps mainFuel mainConfig

/-- The final state of the run of `main`. -/
def mainResult : Option State :=
  run mainFuel mainConfig

/-- Split a text into its lines: each line feed ends a line; text after the
last line feed, if any, is a last line. -/
def linesAux : List Char → List Char → List String
  | cur, [] => if cur.isEmpty then [] else [String.mk cur.reverse]
  | cur, c :: cs =>
    if c = Char.ofNat 10 then String.mk cur.reverse :: linesAux [] cs
    else linesAux (c :: cur) cs

/-- The lines of standard output. -/
def State.lines (s : State) : List String :=
  linesAux [] s.stdout.data

/-- The texts written to standard output, one per write. -/
def State.texts (s : State) : List String :=
  s.out.map Event.text

/-- The `Entity` a variable refers to, if it is in scope and not null. -/
def State.target (s : State) (x : Var) : Option Nat :=
  match s.lookup x with
  | some (.unique_ptr p) => p
  | some (.shared_ptr (some b)) => (s.blocks[b]?).map CtrlBlock.obj
  | some (.weak_ptr (some b)) => (s.blocks[b]?).map CtrlBlock.obj
  | _ => none

/-- Whether a binding is an owning handle on control block `b`. -/
def owning (b : Nat) : Var × Handle → Bool
  | (_, .shared_ptr (some b1)) => b1 = b
  | _ => false

/-- Number of live owning handles on control block `b`: the `shared_ptr`
variables in scope that refer to it. -/
def State.owners (s : State) (b : Nat) : Nat :=
  (s.scopes.map (List.countP (owning b))).sum

/-- Whether a variable is in scope. -/
def State.live (s : State) (x : Var) : Bool :=
  (s.lookup x).isSome

/-- Number of writes made so far by the given function. -/
def State.emitted (s : State) (o : Origin) : Nat :=
  s.out.countP (fun e => e.origin = o)

/-- What a step wrote. -/
def Transition.emits (t : Transition) : List Event :=
  t.after.out.drop t.before.out.length

/-- Both events were written, the first occurrence of `e1` before the first
occurrence of `e2`. -/
def before (e1 e2 : Event) (out : List Event) : Bool :=
  out.contains e1 && out.contains e2 && decide (out.indexOf e1 < out.indexOf e2)

/-- Each step of a run paired with the step that follows it. -/
def successive (l : List Transition) : List (Transition × Transition) :=
  l.zip l.tail

/-- The variable a step released, if the step is the destruction of a local. -/
def Transition.released (t : Transition) : Option Var :=
  match t.act with
  | .release x => some x
  | _ => none

/-- The variable a step declared, if any. -/
def Transition.declared (t : Transition) : Option Var :=
  match t.act with
  | .declare x => some x
  | _ => none

/-- The steps of `main` from the one that creates `sharedEntity` up to, and
not including, the first one after which no owning handle on its control block
(block 0) is in scope. -/
def sharedLifetime : List Transition :=
  (mainSteps.dropWhile (fun t => t.act ≠ .declare .sharedEntity)).takeWhile
    (fun t => t.after.owners 0 ≠ 0)

/-- The owner counter of every control block holds the number of owning
handles on it that are in scope, modulo 2 to the power 32; and no handle in
scope is on a block that does not exist. -/
def Counted (s : State) : Prop :=
  ∀ b, use_word s (some b) = s.owners b % wordSize ∧
    (s.blocks.length ≤ b → s.owners b = 0)

/-- Some `unique_ptr` variable in scope owns the object `p`. -/
def uniqueIn (p : Nat) (s : State) : Prop :=
  ∃ f ∈ s.scopes, ∃ x, (x, Handle.unique_ptr (some p)) ∈ f

/-- The objects under shared ownership are kept alive by their owners: the
object of a control block with a positive owner counter is alive.  The other
fields say that objects are not confused with one another: two control blocks
manage different objects, no object is both under exclusive and under shared
ownership, and every managed object has been allocated. -/
structure Safe (s : State) : Prop where
  kept : ∀ (b : Nat) (c : CtrlBlock),
    s.blocks[b]? = some c → 0 < c.strong → s.alive c.obj = true
  inj : ∀ (b b1 : Nat) (c c1 : CtrlBlock),
    s.blocks[b]? = some c → s.blocks[b1]? = some c1 → c.obj = c1.obj → b = b1
  apart : ∀ (p : Nat), uniqueIn p s →
    ∀ (b : Nat) (c : CtrlBlock), s.blocks[b]? = some c → c.obj ≠ p
  bound : ∀ (b : Nat) (c : CtrlBlock), s.blocks[b]? = some c → c.obj < s.heap.length
  ubound : ∀ (p : Nat), uniqueIn p s → p < s.heap.length

/-- An update of the control blocks from `s` to `s1` that changes no block's
object, creates no block, and gives a positive owner counter only to blocks
whose object is alive. -/
def BlocksKept (s s1 : State) : Prop :=
  ∀ (b : Nat) (c1 : CtrlBlock), s1.blocks[b]? = some c1 →
    ∃ c, s.blocks[b]? = some c ∧ c1.obj = c.obj ∧ (0 < c1.strong → s.alive c.obj = true)

/-- What the three operations that yield a handle have in common: the scopes
are left alone, no control block is made or freed, and the owner counter of a
block is incremented exactly when the handle is an owner of it, the block
existing. -/
def Yields (s s1 : State) (x : Var) (h : Handle) : Prop :=
  s1.scopes = s.scopes ∧ s1.blocks.length = s.blocks.length ∧
    (∀ b, use_word s1 (some b) =
      if owning b (x, h) then incr (use_word s (some b)) else use_word s (some b)) ∧
    (∀ b, owning b (x, h) = true → b < s.blocks.length)

end SmartPointers

namespace SmartPointers

set_option maxRecDepth 100000

/-- C1. The run of `main` ends normally with status 0, after 21 steps.  Its
writes to standard output (one write per output statement executed), with the writes of "Entity Destroyed" removed, are in this order: the
unique-pointer header, "Entity Created", "Hello from Entity", the
shared-pointer header, "Entity Created", "Reference Count: 2", the weak-pointer
header, "Entity is alive".  There are exactly two writes of "Entity Destroyed"
and ten writes in all, so nothing else is written.  The headers are the
literals of the source, each a blank line followed by the title line; the
whole output and its lines are given as well. -/
theorem C1_main_output :
    mainResult.map State.status = some (some 0) ∧
    mainSteps.length = 21 ∧
    mainSteps.getLast?.map Transition.after = mainResult ∧
    mainResult.map (fun s => s.texts.filter (fun l => l ≠ "Entity Destroyed\n")) =
      some ["\n=== Unique Pointer Example ===\n", "Entity Created\n", "Hello from Entity\n",
            "\n=== Shared Pointer Example ===\n", "Entity Created\n", "Reference Count: 2\n",
            "\n=== Weak Pointer Example ===\n", "Entity is alive\n"] ∧
    mainResult.map (fun s => s.texts.count "Entity Destroyed\n") = some 2 ∧
    mainResult.map (fun s => s.texts.length) = some 10 ∧
    mainResult.map State.stdout =
      some ("\n=== Unique Pointer Example ===\nEntity Created\nHello from Entity\n" ++
            "\n=== Shared Pointer Example ===\nEntity Created\nReference Count: 2\n" ++
            "\n=== Weak Pointer Example ===\nEntity is alive\n" ++
            "Entity Destroyed\nEntity Destroyed\n") ∧
    mainResult.map (fun s => s.lines.filter (fun l => l ≠ "Entity Destroyed")) =
      some ["", "=== Unique Pointer Example ===", "Entity Created", "Hello from Entity",
            "", "=== Shared Pointer Example ===", "Entity Created", "Reference Count: 2",
            "", "=== Weak Pointer Example ===", "Entity is alive"] ∧
    mainResult.map (fun s => s.lines.count "Entity Destroyed") = some 2 := by
  decide

/-- C2. In the run of `main` exactly one step declares `anotherShared`.  After
it `anotherShared` and `sharedEntity` hold the same non-null handle, the use
count of `sharedEntity` is 2 (it was 1 before), and the step writes nothing and
allocates nothing.  The step that follows is the use-count query and writes
"Reference Count: 2".  The shared instance (object 1) has exactly one
"Entity Created" event in the whole run. -/
theorem C2_copy_gives_count_two :
    (mainSteps.filter (fun t => t.act = .declare .anotherShared)).length = 1 ∧
    (∀ t ∈ mainSteps, t.act = .declare .anotherShared →
      t.after.lookup .sharedEntity = some (.shared_ptr (some 0)) ∧
      t.after.lookup .anotherShared = t.after.lookup .sharedEntity ∧
      t.after.target .sharedEntity = some 1 ∧
      use_count t.before (some 0) = 1 ∧
      use_count t.after (some 0) = 2 ∧
      t.emits = [] ∧
      t.after.heap = t.before.heap) ∧
    (∀ tt ∈ successive mainSteps, tt.1.act = .declare .anotherShared →
      tt.2.act = .write ∧ tt.2.emits = [⟨.main, "Reference Count: 2\n"⟩]) ∧
    mainResult.map (fun s => s.emitted (.ctor 1)) = some 1 ∧
    mainResult.map (fun s => s.out.count ⟨.ctor 1, "Entity Created\n"⟩) = some 1 := by
  decide

/-- C3, as stated, fails.  The exclusively-owned instance is object 0.  Its
"Entity Destroyed" event is not written before the shared-pointer header: the
header comes first, and so do the second "Entity Created" and
"Entity is alive". -/
theorem C3_unique_not_destroyed_before_shared_header :
    mainResult.map (fun s => before ⟨.dtor 0, "Entity Destroyed\n"⟩
      ⟨.main, "\n=== Shared Pointer Example ===\n"⟩ s.out) = some false ∧
    mainResult.map (fun s => before ⟨.main, "\n=== Shared Pointer Example ===\n"⟩
      ⟨.dtor 0, "Entity Destroyed\n"⟩ s.out) = some true ∧
    mainResult.map (fun s => before ⟨.ctor 1, "Entity Created\n"⟩
      ⟨.dtor 0, "Entity Destroyed\n"⟩ s.out) = some true := by
  decide

/-- C3, amended.  `uniqueEntity` is a local of the body of `main`, and refers
to object 0.  It is released once, by a step that comes after `return`, and
that step is the one that writes the "Entity Destroyed" event of object 0.
Once declared, the variable stays in scope and the object alive at every step
before `return`, in particular when the shared-pointer header is written; so
the event comes after the shared-pointer header, after the second
"Entity Created" and after "Entity is alive", and it is the last write of
the run. -/
theorem C3_unique_destroyed_at_end_of_main :
    (∀ t ∈ mainSteps, t.act = .declare .uniqueEntity →
      t.after.target .uniqueEntity = some 0 ∧ t.after.scopes.length = 1) ∧
    (mainSteps.filter (fun t => t.act = .release .uniqueEntity)).length = 1 ∧
    (∀ t ∈ mainSteps, t.act = .release .uniqueEntity →
      t.before.status = some 0 ∧
      t.emits = [⟨.dtor 0, "Entity Destroyed\n"⟩]) ∧
    (∀ t ∈ mainSteps, t.act ≠ .release .uniqueEntity →
      ¬ (⟨.dtor 0, "Entity Destroyed\n"⟩ ∈ t.emits)) ∧
    (∀ t ∈ mainSteps, t.before.live .uniqueEntity = true → t.before.status = none →
      t.after.live .uniqueEntity = true ∧ t.after.alive 0 = true) ∧
    (∀ t ∈ mainSteps, t.emits = [⟨.main, "\n=== Shared Pointer Example ===\n"⟩] →
      t.after.live .uniqueEntity = true ∧ t.after.alive 0 = true) ∧
    mainResult.map (fun s => before ⟨.main, "\n=== Shared Pointer Example ===\n"⟩
      ⟨.dtor 0, "Entity Destroyed\n"⟩ s.out) = some true ∧
    mainResult.map (fun s => before ⟨.ctor 1, "Entity Created\n"⟩
      ⟨.dtor 0, "Entity Destroyed\n"⟩ s.out) = some true ∧
    mainResult.map (fun s => before ⟨.main, "Entity is alive\n"⟩
      ⟨.dtor 0, "Entity Destroyed\n"⟩ s.out) = some true ∧
    mainResult.map (fun s => s.out.getLast?) = some (some ⟨.dtor 0, "Entity Destroyed\n"⟩) := by
  decide

/-- C5. The shared instance is object 1, managed by control block 0.  Its
"Entity Destroyed" event is written exactly once in the run of `main`.  The
release of `anotherShared` takes the use count from 2 to 1, writes nothing and
leaves the object alive.  The release of `sharedEntity` comes later, takes the
count from 1 to 0, writes exactly that event and ends the life of the object;
at that point neither owner is in scope.  No other step writes the event. -/
theorem C5_shared_destroyed_once_after_both_released :
    mainResult.map (fun s => s.emitted (.dtor 1)) = some 1 ∧
    mainResult.map (fun s => s.out.count ⟨.dtor 1, "Entity Destroyed\n"⟩) = some 1 ∧
    (mainSteps.filterMap Transition.released).filter
      (fun x => x = .sharedEntity ∨ x = .anotherShared) = [.anotherShared, .sharedEntity] ∧
    (∀ t ∈ mainSteps, t.act = .release .anotherShared →
      t.before.target .sharedEntity = some 1 ∧
      use_count t.before (some 0) = 2 ∧
      use_count t.after (some 0) = 1 ∧
      t.emits = [] ∧
      t.after.alive 1 = true) ∧
    (∀ t ∈ mainSteps, t.act = .release .sharedEntity →
      use_count t.before (some 0) = 1 ∧
      use_count t.after (some 0) = 0 ∧
      t.emits = [⟨.dtor 1, "Entity Destroyed\n"⟩] ∧
      t.before.alive 1 = true ∧
      t.after.alive 1 = false ∧
      t.after.live .sharedEntity = false ∧
      t.after.live .anotherShared = false) ∧
    (∀ t ∈ mainSteps, t.act ≠ .release .sharedEntity →
      ∀ e ∈ t.emits, e.origin ≠ .dtor 1) := by
  decide

/-- C6. The exclusively-owned instance is object 0.  In the run of `main` it
has exactly one "Entity Created" event, one "Hello from Entity" event and one
"Entity Destroyed" event, written in that order, and no "Hello from Entity"
event of it follows the "Entity Destroyed" event. -/
theorem C6_unique_instance_events :
    (mainSteps.filter (fun t => t.act = .declare .uniqueEntity)).length = 1 ∧
    (∀ t ∈ mainSteps, t.act = .declare .uniqueEntity →
      t.after.target .uniqueEntity = some 0) ∧
    mainResult.map (fun s => s.out.filter (fun e => e.origin = .ctor 0)) =
      some [⟨.ctor 0, "Entity Created\n"⟩] ∧
    mainResult.map (fun s => s.out.filter (fun e => e.origin = .Print 0)) =
      some [⟨.Print 0, "Hello from Entity\n"⟩] ∧
    mainResult.map (fun s => s.out.filter (fun e => e.origin = .dtor 0)) =
      some [⟨.dtor 0, "Entity Destroyed\n"⟩] ∧
    mainResult.map (fun s => before ⟨.ctor 0, "Entity Created\n"⟩
      ⟨.Print 0, "Hello from Entity\n"⟩ s.out) = some true ∧
    mainResult.map (fun s => before ⟨.Print 0, "Hello from Entity\n"⟩
      ⟨.dtor 0, "Entity Destroyed\n"⟩ s.out) = some true ∧
    mainResult.map (fun s => before ⟨.ctor 0, "Entity Created\n"⟩
      ⟨.dtor 0, "Entity Destroyed\n"⟩ s.out) = some true ∧
    mainResult.map (fun s => (s.out.drop (s.out.indexOf ⟨.dtor 0, "Entity Destroyed\n"⟩)).filter
      (fun e => e.origin = .Print 0)) = some [] ∧
    (∀ t ∈ mainSteps, t.before.alive 0 = false → ∀ e ∈ t.emits, e.origin ≠ .Print 0) := by
  decide

/-- C8. In the run of `main`, the step that declares `lockedEntity` with the
result of `lock()` writes nothing, leaves the heap as it is (object 1 stays
alive), leaves the observer count as it is, and raises the use count of
block 0 from 2 to 3.  The use count is 3 at every step while `lockedEntity` is
in scope, and the release of `lockedEntity` brings it back to 2, writing
nothing and destroying nothing.  When the if statement has been left the state
is the one before it, with "Entity is alive" appended to the output.  The step
that declares the observer `weakEntity` leaves the use count at 2, and writes
and destroys nothing. -/
theorem C8_lock_only_changes_use_count :
    (∀ t ∈ mainSteps, t.act = .declare .lockedEntity →
      t.emits = [] ∧
      t.after.out = t.before.out ∧
      t.after.heap = t.before.heap ∧
      t.after.alive 1 = true ∧
      t.after.status = t.before.status ∧
      t.after.scopes = [(.lockedEntity, .shared_ptr (some 0))] :: t.before.scopes ∧
      t.after.blocks.map CtrlBlock.weak = t.before.blocks.map CtrlBlock.weak ∧
      t.after.blocks.map CtrlBlock.obj = t.before.blocks.map CtrlBlock.obj ∧
      use_count t.before (some 0) = 2 ∧
      use_count t.after (some 0) = 3) ∧
    (∀ t ∈ mainSteps, t.after.live .lockedEntity = true → use_count t.after (some 0) = 3) ∧
    (∀ t ∈ mainSteps, t.act = .release .lockedEntity →
      use_count t.before (some 0) = 3 ∧
      use_count t.after (some 0) = 2 ∧
      t.emits = [] ∧
      t.after.heap = t.before.heap) ∧
    (∀ t ∈ mainSteps, t.act = .declare .lockedEntity →
      ∀ tt ∈ successive mainSteps, tt.1.act = .release .lockedEntity →
        tt.2.act = .leave ∧
        tt.2.after = t.before.write .main "Entity is alive\n") ∧
    (∀ t ∈ mainSteps, t.act = .declare .weakEntity →
      use_count t.before (some 0) = 2 ∧
      use_count t.after (some 0) = 2 ∧
      t.before.owners 0 = 2 ∧
      t.after.owners 0 = 2 ∧
      t.emits = [] ∧
      t.after.heap = t.before.heap) ∧
    (mainSteps.filterMap Transition.declared).filter
      (fun x => x = .weakEntity ∨ x = .lockedEntity) = [.weakEntity, .lockedEntity] ∧
    (mainSteps.filter (fun t => t.act = .release .lockedEntity)).length = 1 := by
  decide

/-- C9. The steps of `main` from the creation of `sharedEntity` up to the
release of the last owner are fourteen; the first declares `sharedEntity`.
After each of them the use count of block 0 equals the number of owning
handles in scope, which are those among `sharedEntity`, `anotherShared` and
`lockedEntity` that are in scope; the count is at least 1 and object 1 is
alive.  Over the whole run the use count equals the number of owners in scope,
and a step ends the life of object 1 exactly when it takes the use count from
a positive value to 0, exactly when it writes the "Entity Destroyed" event of
object 1; there is one such step, the release of `sharedEntity`, which comes
right after those fourteen. -/
theorem C9_use_count_invariant :
    sharedLifetime.length = 14 ∧
    sharedLifetime.head?.map Transition.act = some (.declare .sharedEntity) ∧
    (∀ t ∈ sharedLifetime,
      use_count t.after (some 0) = t.after.owners 0 ∧
      t.after.owners 0 =
        ([Var.sharedEntity, Var.anotherShared, Var.lockedEntity].filter t.after.live).length ∧
      1 ≤ use_count t.after (some 0) ∧
      t.after.target .sharedEntity = some 1 ∧
      t.after.alive 1 = true) ∧
    (∀ t ∈ mainSteps,
      use_count t.before (some 0) = t.before.owners 0 ∧
      use_count t.after (some 0) = t.after.owners 0) ∧
    (∀ t ∈ mainSteps,
      ((t.before.alive 1 = true ∧ t.after.alive 1 = false) ↔
        (0 < use_count t.before (some 0) ∧ use_count t.after (some 0) = 0)) ∧
      ((t.before.alive 1 = true ∧ t.after.alive 1 = false) ↔
        ⟨.dtor 1, "Entity Destroyed\n"⟩ ∈ t.emits)) ∧
    (mainSteps.filter (fun t =>
      0 < use_count t.before (some 0) ∧ use_count t.after (some 0) = 0)).length = 1 ∧
    (((mainSteps.dropWhile (fun t => t.act ≠ .declare .sharedEntity)).drop
        sharedLifetime.length).head?).map Transition.act = some (.release .sharedEntity) := by
  decide

/-- C10. The locals of the body of `main` are declared in the order
`uniqueEntity`, `sharedEntity`, `anotherShared`, `weakEntity`, and after
`return` they are released in the reverse order.  The release of `weakEntity`
writes nothing and leaves the use count at 2; the release of `anotherShared`
writes nothing and takes the count from 2 to 1; the release of `sharedEntity`
takes it from 1 to 0 and writes the "Entity Destroyed" event of the shared
instance (object 1); the release of `uniqueEntity` writes the
"Entity Destroyed" event of the exclusive instance (object 0).  So the last
two writes of the run are "Entity Destroyed" of object 1 and then of object 0,
and at no step is `weakEntity` in scope while object 1 is destroyed. -/
theorem C10_release_in_reverse_order :
    (mainSteps.filter (fun t => t.after.scopes.length = 1)).filterMap Transition.declared =
      [.uniqueEntity, .sharedEntity, .anotherShared, .weakEntity] ∧
    (mainSteps.dropWhile (fun t => t.act ≠ .ret)).map Transition.act =
      [.ret, .release .weakEntity, .release .anotherShared, .release .sharedEntity,
       .release .uniqueEntity, .leave] ∧
    (∀ t ∈ mainSteps, t.act = .release .weakEntity →
      t.emits = [] ∧ use_count t.before (some 0) = 2 ∧ use_count t.after (some 0) = 2) ∧
    (∀ t ∈ mainSteps, t.act = .release .anotherShared →
      t.emits = [] ∧ use_count t.before (some 0) = 2 ∧ use_count t.after (some 0) = 1) ∧
    (∀ t ∈ mainSteps, t.act = .release .sharedEntity →
      t.emits = [⟨.dtor 1, "Entity Destroyed\n"⟩] ∧
      use_count t.before (some 0) = 1 ∧ use_count t.after (some 0) = 0) ∧
    (∀ t ∈ mainSteps, t.act = .release .uniqueEntity →
      t.emits = [⟨.dtor 0, "Entity Destroyed\n"⟩]) ∧
    mainResult.map (fun s => s.out.drop (s.out.length - 2)) =
      some [⟨.dtor 1, "Entity Destroyed\n"⟩, ⟨.dtor 0, "Entity Destroyed\n"⟩] ∧
    mainResult.map (fun s => before ⟨.dtor 1, "Entity Destroyed\n"⟩
      ⟨.dtor 0, "Entity Destroyed\n"⟩ s.out) = some true ∧
    (∀ t ∈ mainSteps,
      (t.before.live .weakEntity = true → t.before.alive 1 = true) ∧
      (t.after.live .weakEntity = true → t.after.alive 1 = true)) := by
  decide

/-- The owner counter after a block has been replaced. -/
theorem use_word_set (s s1 : State) (b b1 : Nat) (c x : CtrlBlock)
    (hb : s.blocks[b]? = some c) (h1 : s1.blocks = s.blocks.set b x) :
    use_word s1 (some b1) = if b1 = b then x.strong else use_word s (some b1) := by
  have hlt : b < s.blocks.length := by
    rcases Nat.lt_or_ge b s.blocks.length with h | h
    · exact h
    · rw [List.getElem?_eq_none h] at hb; cases hb
  by_cases hbb : b1 = b
  · subst hbb
    simp [use_word, h1, hlt]
  · have hne : b ≠ b1 := fun e => hbb e.symm
    simp [use_word, h1, hbb, List.getElem?_set_ne hne]

/-- A block that can be read exists. -/
theorem lt_of_get (l : List CtrlBlock) (b : Nat) (c : CtrlBlock) (hb : l[b]? = some c) :
    b < l.length := by
  rcases Nat.lt_or_ge b l.length with h | h
  · exact h
  · rw [List.getElem?_eq_none h] at hb; cases hb

/-- The machine starts in a counted state. -/
theorem counted_start : Counted State.start := by
  intro b
  simp [use_word, State.owners, State.start]

/-- A state with the same owner counters, as many blocks and the same owners
in scope as a counted state is counted. -/
theorem counted_of_same (s s1 : State) (hinv : Counted s)
    (hw : ∀ b, use_word s1 (some b) = use_word s (some b))
    (hl : s1.blocks.length = s.blocks.length)
    (ho : ∀ b, s1.owners b = s.owners b) : Counted s1 := by
  intro b
  rw [hw b, hl, ho b]
  exact hinv b

/-- A state in which, with respect to a counted state, one owner has been
added when the counter of its block, which exists, has been incremented, is
counted.  The flag `g b` says whether the owner is on block `b`. -/
theorem counted_of_incr (s s1 : State) (g : Nat → Bool) (hinv : Counted s)
    (hw : ∀ b, use_word s1 (some b) =
      if g b then incr (use_word s (some b)) else use_word s (some b))
    (hl : s1.blocks.length = s.blocks.length)
    (hg : ∀ b, g b = true → b < s.blocks.length)
    (ho : ∀ b, s1.owners b = s.owners b + if g b then 1 else 0) : Counted s1 := by
  intro b
  obtain ⟨h1, h2⟩ := hinv b
  rw [hw b, hl, ho b]
  by_cases hgb : g b = true
  · have := hg b hgb
    simp only [hgb, if_true, h1, incr, wordSize]
    constructor
    · omega
    · intro hle; omega
  · simp only [hgb, if_false]
    exact ⟨by simpa using h1, by simpa using h2⟩

/-- A state in which, with respect to a state that was counted but for one
owner, that owner's counter has been decremented, is counted. -/
theorem counted_of_decr (s s1 : State) (g : Nat → Bool)
    (hinv : ∀ b, use_word s (some b) = (s.owners b + if g b then 1 else 0) % wordSize ∧
      (s.blocks.length ≤ b → s.owners b + (if g b then 1 else 0) = 0))
    (hw : ∀ b, use_word s1 (some b) =
      if g b then decr (use_word s (some b)) else use_word s (some b))
    (hl : s1.blocks.length = s.blocks.length)
    (ho : ∀ b, s1.owners b = s.owners b) : Counted s1 := by
  intro b
  obtain ⟨h1, h2⟩ := hinv b
  rw [hw b, hl, ho b]
  by_cases hgb : g b = true
  · simp only [hgb, if_true] at h1 h2
    simp only [hgb, if_true, h1, decr, wordSize]
    constructor
    · omega
    · intro hle; have := h2 hle; omega
  · simp only [hgb, if_false] at h1 h2
    simp only [hgb, if_false]
    exact ⟨by simpa using h1, by simpa using h2⟩

/-- Deleting an object touches neither the control blocks nor the scopes. -/
theorem delete_Entity_frame (p : Nat) (s s1 : State) (h : delete_Entity p s = some s1) :
    s1.blocks = s.blocks ∧ s1.scopes = s.scopes := by
  unfold delete_Entity at h
  split at h
  · simp only [Option.some.injEq] at h
    subst h
    simp [Entity.dtor, State.write]
  · cases h

/-- The owner counter depends on the control blocks only. -/
theorem use_word_congr (s s1 : State) (h : s1.blocks = s.blocks) (b : Nat) :
    use_word s1 (some b) = use_word s (some b) := by
  simp only [use_word, h]

/-- The number of owners in scope depends on the scopes only. -/
theorem owners_congr (s s1 : State) (h : s1.scopes = s.scopes) (b : Nat) :
    s1.owners b = s.owners b := by
  simp only [State.owners, h]

/-- The destructor of a handle leaves the scopes alone, frees no control
block, and decrements the owner counter of the block that the handle owned,
if any. -/
theorem destroy_words (s s1 : State) (x : Var) (h : Handle)
    (hd : destroy s h = some s1) :
    s1.scopes = s.scopes ∧ s1.blocks.length = s.blocks.length ∧
    ∀ b, use_word s1 (some b) =
      if owning b (x, h) then decr (use_word s (some b)) else use_word s (some b) := by
  cases h with
  | unique_ptr p =>
    cases p with
    | none =>
      simp only [destroy, Option.some.injEq] at hd
      subst hd
      exact ⟨rfl, rfl, fun b => by simp [owning]⟩
    | some p =>
      simp only [destroy] at hd
      obtain ⟨e1, e2⟩ := delete_Entity_frame _ _ _ hd
      exact ⟨e2, by rw [e1], fun b => by simp [owning, use_word, e1]⟩
  | weak_ptr w =>
    cases w with
    | none =>
      simp only [destroy, Option.some.injEq] at hd
      subst hd
      exact ⟨rfl, rfl, fun b => by simp [owning]⟩
    | some b0 =>
      simp only [destroy] at hd
      cases hb : s.blocks[b0]? with
      | none => simp [hb] at hd
      | some c =>
        simp only [hb, Option.some.injEq] at hd
        subst hd
        refine ⟨rfl, by simp, fun b => ?_⟩
        rw [use_word_set s _ b0 b c _ hb rfl]
        by_cases hbb : b = b0
        · subst hbb
          simp [owning, use_word, hb]
        · simp [owning, hbb]
  | shared_ptr w =>
    cases w with
    | none =>
      simp only [destroy, Option.some.injEq] at hd
      subst hd
      exact ⟨rfl, rfl, fun b => by simp [owning]⟩
    | some b0 =>
      simp only [destroy] at hd
      cases hb : s.blocks[b0]? with
      | none => simp [hb] at hd
      | some c =>
        simp only [hb] at hd
        by_cases h1 : c.strong = 1
        · rw [if_pos h1] at hd
          obtain ⟨e1, e2⟩ := delete_Entity_frame _ _ _ hd
          refine ⟨e2, by rw [e1]; simp, fun b => ?_⟩
          rw [use_word_set s s1 b0 b c { c with strong := 0 } hb e1]
          by_cases hbb : b = b0
          · subst hbb
            simp [owning, use_word, hb, h1, decr, wordSize]
          · have hbb2 : ¬ b0 = b := fun e => hbb e.symm
            simp [owning, hbb, hbb2]
        · rw [if_neg h1] at hd
          simp only [Option.some.injEq] at hd
          subst hd
          refine ⟨rfl, by simp, fun b => ?_⟩
          rw [use_word_set s _ b0 b c _ hb rfl]
          by_cases hbb : b = b0
          · subst hbb
            simp [owning, use_word, hb]
          · have hbb2 : ¬ b0 = b := fun e => hbb e.symm
            simp [owning, hbb, hbb2]

/-- Declaring a local adds one owner in scope exactly when the local is an
owning handle; the control blocks are not touched. -/
theorem declare_owners (s s1 : State) (x : Var) (h : Handle)
    (hd : s.declare x h = some s1) :
    s1.blocks = s.blocks ∧
    ∀ b, s1.owners b = s.owners b + if owning b (x, h) then 1 else 0 := by
  unfold State.declare at hd
  cases hs : s.scopes with
  | nil => simp [hs] at hd
  | cons f fs =>
    simp only [hs, Option.some.injEq] at hd
    subst hd
    refine ⟨rfl, fun b => ?_⟩
    simp only [State.owners, hs, List.map_cons, List.sum_cons, List.countP_cons]
    omega

/-- Copying a `shared_ptr` increments the owner counter of its block exactly
when the copy is an owning handle. -/
theorem shared_copy_yields (s s1 : State) (cb : Option Nat) (x : Var) (h : Handle)
    (hc : shared_copy s cb = some (h, s1)) : Yields s s1 x h := by
  cases cb with
  | none =>
    simp only [shared_copy, Option.some.injEq, Prod.mk.injEq] at hc
    obtain ⟨rfl, rfl⟩ := hc
    exact ⟨rfl, rfl, fun b => by simp [owning], fun b hb => by simp [owning] at hb⟩
  | some b0 =>
    simp only [shared_copy] at hc
    cases hb : s.blocks[b0]? with
    | none => simp [hb] at hc
    | some c =>
      simp only [hb, Option.some.injEq, Prod.mk.injEq] at hc
      obtain ⟨rfl, rfl⟩ := hc
      refine ⟨rfl, by simp, fun b => ?_, fun b hob => ?_⟩
      · rw [use_word_set s _ b0 b c _ hb rfl]
        by_cases hbb : b = b0
        · subst hbb
          simp [owning, use_word, hb]
        · have hbb2 : ¬ b0 = b := fun e => hbb e.symm
          simp [owning, hbb, hbb2]
      · simp only [owning, decide_eq_true_eq] at hob
        subst hob
        exact lt_of_get _ _ _ hb

/-- Promotion by `lock()` increments the owner counter of the observed block
exactly when the result is an owning handle. -/
theorem lock_yields (s s1 : State) (cb : Option Nat) (x : Var) (h : Handle)
    (hc : lock s cb = some (h, s1)) : Yields s s1 x h := by
  cases cb with
  | none =>
    simp only [lock, Option.some.injEq, Prod.mk.injEq] at hc
    obtain ⟨rfl, rfl⟩ := hc
    exact ⟨rfl, rfl, fun b => by simp [owning], fun b hb => by simp [owning] at hb⟩
  | some b0 =>
    simp only [lock] at hc
    cases hb : s.blocks[b0]? with
    | none => simp [hb] at hc
    | some c =>
      simp only [hb] at hc
      by_cases h0 : c.strong = 0
      · rw [if_pos h0] at hc
        simp only [Option.some.injEq, Prod.mk.injEq] at hc
        obtain ⟨rfl, rfl⟩ := hc
        exact ⟨rfl, rfl, fun b => by simp [owning], fun b hb => by simp [owning] at hb⟩
      · rw [if_neg h0] at hc
        simp only [Option.some.injEq, Prod.mk.injEq] at hc
        obtain ⟨rfl, rfl⟩ := hc
        refine ⟨rfl, by simp, fun b => ?_, fun b hob => ?_⟩
        · rw [use_word_set s _ b0 b c _ hb rfl]
          by_cases hbb : b = b0
          · subst hbb
            simp [owning, use_word, hb]
          · have hbb2 : ¬ b0 = b := fun e => hbb e.symm
            simp [owning, hbb, hbb2]
        · simp only [owning, decide_eq_true_eq] at hob
          subst hob
          exact lt_of_get _ _ _ hb

/-- Registering an observer changes no owner counter and yields no owning
handle. -/
theorem weak_from_shared_yields (s s1 : State) (cb : Option Nat) (x : Var) (h : Handle)
    (hc : weak_from_shared s cb = some (h, s1)) : Yields s s1 x h := by
  cases cb with
  | none =>
    simp only [weak_from_shared, Option.some.injEq, Prod.mk.injEq] at hc
    obtain ⟨rfl, rfl⟩ := hc
    exact ⟨rfl, rfl, fun b => by simp [owning], fun b hb => by simp [owning] at hb⟩
  | some b0 =>
    simp only [weak_from_shared] at hc
    cases hb : s.blocks[b0]? with
    | none => simp [hb] at hc
    | some c =>
      simp only [hb, Option.some.injEq, Prod.mk.injEq] at hc
      obtain ⟨rfl, rfl⟩ := hc
      refine ⟨rfl, by simp, fun b => ?_, fun b hob => by simp [owning] at hob⟩
      rw [use_word_set s _ b0 b c _ hb rfl]
      by_cases hbb : b = b0
      · subst hbb
        simp [owning, use_word, hb]
      · simp [owning, hbb]

/-- Declaring the handle that an operation has yielded keeps the state
counted, and adds at most one owner. -/
theorem counted_declare_after (s s1 s2 : State) (x : Var) (h : Handle) (hinv : Counted s)
    (hy : Yields s s1 x h) (hd : s1.declare x h = some s2) :
    Counted s2 ∧ ∀ b, s2.owners b ≤ s.owners b + 1 := by
  obtain ⟨y1, y2, y3, y4⟩ := hy
  obtain ⟨d1, d2⟩ := declare_owners _ _ _ _ hd
  have ho : ∀ b, s2.owners b = s.owners b + if owning b (x, h) then 1 else 0 := by
    intro b
    rw [d2 b, owners_congr s s1 y1 b]
  refine ⟨counted_of_incr s s2 (fun b => owning b (x, h)) hinv ?_ (by rw [d1, y2]) y4 ho, ?_⟩
  · intro b
    rw [use_word_congr s1 s2 d1 b]
    exact y3 b
  · intro b
    rw [ho b]
    split <;> omega

/-- Executing a statement keeps the state counted, and adds at most one
owner. -/
theorem exec_counted (s : State) (k : List Instr) (st : Stmt) (a : Action) (c1 : Config)
    (h : exec s k st = some (a, c1)) (hinv : Counted s) :
    Counted c1.st ∧ ∀ b, c1.st.owners b ≤ s.owners b + 1 := by
  cases st with
  | cout text =>
    simp only [exec, Option.some.injEq, Prod.mk.injEq] at h
    obtain ⟨-, rfl⟩ := h
    exact ⟨counted_of_same s _ hinv (fun _ => rfl) rfl (fun _ => rfl),
      fun b => Nat.le_succ _⟩
  | make_unique x =>
    simp only [exec] at h
    split at h
    · rename_i s1 hd
      simp only [Option.some.injEq, Prod.mk.injEq] at h
      obtain ⟨-, rfl⟩ := h
      obtain ⟨e1, e2⟩ := declare_owners _ _ _ _ hd
      have ho : ∀ b, s1.owners b = s.owners b := by
        intro b
        rw [e2 b]
        simp [owning, State.owners, new_Entity, Entity.ctor, State.write]
      exact ⟨counted_of_same s s1 hinv (fun b => use_word_congr _ _ (by rw [e1]; rfl) b)
        (by rw [e1]; rfl) ho, fun b => by rw [ho b]; omega⟩
    · cases h
  | arrow_Print x =>
    simp only [exec] at h
    split at h
    · split at h
      · simp only [Option.some.injEq, Prod.mk.injEq] at h
        obtain ⟨-, rfl⟩ := h
        exact ⟨counted_of_same s _ hinv (fun _ => rfl) rfl (fun _ => rfl),
          fun b => Nat.le_succ _⟩
      · cases h
    · cases h
  | make_shared x =>
    simp only [exec] at h
    split at h
    · rename_i s1 hd
      simp only [Option.some.injEq, Prod.mk.injEq] at h
      obtain ⟨-, rfl⟩ := h
      obtain ⟨e1, e2⟩ := declare_owners _ _ _ _ hd
      have ho : ∀ b, s1.owners b =
          s.owners b + if b = s.blocks.length then 1 else 0 := by
        intro b
        rw [e2 b]
        by_cases hbb : b = s.blocks.length
        · subst hbb
          simp [owning, State.owners, new_control_block, new_Entity, Entity.ctor,
            State.write]
        · have hbb2 : ¬ s.blocks.length = b := fun e => hbb e.symm
          simp [owning, State.owners, new_control_block, new_Entity, Entity.ctor,
            State.write, hbb, hbb2]
      have hbl : s1.blocks = s.blocks ++ [⟨s.heap.length, 1, 0⟩] := by
        rw [e1]; rfl
      refine ⟨fun b => ?_, fun b => by rw [ho b]; split <;> omega⟩
      obtain ⟨h1, h2⟩ := hinv b
      rw [ho b]
      simp only [use_word, hbl, List.length_append, List.length_singleton] at h1 ⊢
      by_cases hbb : b = s.blocks.length
      · subst hbb
        have := h2 (Nat.le_refl _)
        simp [this, wordSize]
      · rcases Nat.lt_or_ge b s.blocks.length with hlt | hge
        · simp only [List.getElem?_append_left hlt, hbb, if_false, Nat.add_zero]
          exact ⟨h1, fun hle => by omega⟩
        · have hgt : s.blocks.length < b := by omega
          have := h2 hge
          rw [List.getElem?_eq_none (by simp; omega)]
          simp [hbb, this]
    · cases h
  | copy_init x y =>
    simp only [exec] at h
    split at h
    · rename_i cb hl
      split at h
      · rename_i hh s1 hc
        split at h
        · rename_i s2 hd
          simp only [Option.some.injEq, Prod.mk.injEq] at h
          obtain ⟨-, rfl⟩ := h
          exact counted_declare_after s s1 s2 x hh hinv (shared_copy_yields _ _ _ x _ hc) hd
        · cases h
      · cases h
    · cases h
  | cout_use_count p y q =>
    simp only [exec] at h
    split at h
    · simp only [Option.some.injEq, Prod.mk.injEq] at h
      obtain ⟨-, rfl⟩ := h
      exact ⟨counted_of_same s _ hinv (fun _ => rfl) rfl (fun _ => rfl),
        fun b => Nat.le_succ _⟩
    · cases h
  | weak_init x y =>
    simp only [exec] at h
    split at h
    · rename_i cb hl
      split at h
      · rename_i hh s1 hc
        split at h
        · rename_i s2 hd
          simp only [Option.some.injEq, Prod.mk.injEq] at h
          obtain ⟨-, rfl⟩ := h
          exact counted_declare_after s s1 s2 x hh hinv
            (weak_from_shared_yields _ _ _ x _ hc) hd
        · cases h
      · cases h
    · cases h
  | if_lock x w thn els =>
    simp only [exec] at h
    split at h
    · rename_i cb hl
      split at h
      · rename_i hh s1 hc
        simp only [Option.some.injEq, Prod.mk.injEq] at h
        obtain ⟨-, rfl⟩ := h
        obtain ⟨y1, y2, y3, y4⟩ := lock_yields _ _ _ x _ hc
        have ho : ∀ b, State.owners { s1 with scopes := [(x, hh)] :: s1.scopes } b =
            s.owners b + if owning b (x, hh) then 1 else 0 := by
          intro b
          simp only [State.owners, y1, List.map_cons, List.sum_cons, List.countP_cons,
            List.countP_nil]
          omega
        exact ⟨counted_of_incr s _ (fun b => owning b (x, hh)) hinv y3 y2 y4 ho,
          fun b => by rw [ho b]; split <;> omega⟩
      · cases h
    · cases h
  | ret code =>
    simp only [exec, Option.some.injEq, Prod.mk.injEq] at h
    obtain ⟨-, rfl⟩ := h
    exact ⟨counted_of_same s _ hinv (fun _ => rfl) rfl (fun _ => rfl),
      fun b => Nat.le_succ _⟩

/-- Every step keeps the state counted, and adds at most one owner. -/
theorem step_counted (c c1 : Config) (a : Action)
    (h : step c = some (a, c1)) (hinv : Counted c.st) :
    Counted c1.st ∧ ∀ b, c1.st.owners b ≤ c.st.owners b + 1 := by
  obtain ⟨s, code⟩ := c
  cases code with
  | nil => simp [step] at h
  | cons i k =>
    cases i with
    | enter =>
      simp [step] at h
      obtain ⟨-, rfl⟩ := h
      have ho : ∀ b, State.owners { s with scopes := [] :: s.scopes } b = s.owners b := by
        intro b
        simp [State.owners]
      exact ⟨counted_of_same s _ hinv (fun _ => rfl) rfl ho,
        fun b => (ho b).le.trans (Nat.le_succ _)⟩
    | leave =>
      cases hs : s.scopes with
      | nil => simp [step, hs] at h
      | cons f fs =>
        cases f with
        | nil =>
          simp [step, hs] at h
          obtain ⟨-, rfl⟩ := h
          have ho : ∀ b, State.owners { s with scopes := fs } b = s.owners b := by
            intro b
            simp [State.owners, hs]
          exact ⟨counted_of_same s _ hinv (fun _ => rfl) rfl ho,
            fun b => (ho b).le.trans (Nat.le_succ _)⟩
        | cons xh f =>
          obtain ⟨x, hd⟩ := xh
          simp only [step, hs] at h
          cases hdes : destroy { s with scopes := f :: fs } hd with
          | none => simp [hdes] at h
          | some s1 =>
            simp only [hdes, Option.some.injEq, Prod.mk.injEq] at h
            obtain ⟨-, rfl⟩ := h
            obtain ⟨w1, w2, w3⟩ := destroy_words _ _ x hd hdes
            have hpop : ∀ b, s.owners b =
                State.owners { s with scopes := f :: fs } b +
                  if owning b (x, hd) then 1 else 0 := by
              intro b
              simp only [State.owners, hs, List.map_cons, List.sum_cons, List.countP_cons]
              omega
            have ho : ∀ b, s1.owners b = State.owners { s with scopes := f :: fs } b :=
              fun b => owners_congr _ _ w1 b
            refine ⟨counted_of_decr { s with scopes := f :: fs } s1
              (fun b => owning b (x, hd)) ?_ w3 w2 ho, fun b => ?_⟩
            · intro b
              obtain ⟨h1, h2⟩ := hinv b
              rw [hpop b] at h1 h2
              exact ⟨h1, h2⟩
            · rw [ho b, hpop b]
              omega
    | stmt st => exact exec_counted s k st a c1 (by simpa [step] using h) hinv

/-- The machine starts in a safe state. -/
theorem safe_start : Safe State.start := by
  constructor
  · intro b c h; simp [State.start] at h
  · intro b b1 c c1 h; simp [State.start] at h
  · intro p hp b c h; simp [State.start] at h
  · intro b c h; simp [State.start] at h
  · intro p hp
    obtain ⟨f, hf, x, hx⟩ := hp
    simp [State.start] at hf
    subst hf
    cases hx

/-- An update that leaves the heap alone, changes no block's object, gives a
positive owner counter only to blocks whose object is alive, and brings no new
`unique_ptr` into scope, keeps the state safe. -/
theorem safe_of_frame (s s1 : State) (hs : Safe s)
    (hh : s1.heap = s.heap)
    (hb : ∀ (b : Nat) (c1 : CtrlBlock), s1.blocks[b]? = some c1 →
      ∃ c, s.blocks[b]? = some c ∧ c1.obj = c.obj ∧ (0 < c1.strong → s.alive c.obj = true))
    (hu : ∀ p, uniqueIn p s1 → uniqueIn p s) : Safe s1 := by
  constructor
  · intro b c1 h1 hpos
    obtain ⟨c, hc, ho, ha⟩ := hb b c1 h1
    have := ha hpos
    simpa [State.alive, hh, ho] using this
  · intro b b1 c c1 h h1 ho
    obtain ⟨d, hd, hdo, -⟩ := hb b c h
    obtain ⟨d1, hd1, hdo1, -⟩ := hb b1 c1 h1
    exact hs.inj b b1 d d1 hd hd1 (by rw [← hdo, ← hdo1, ho])
  · intro p hp b c h
    obtain ⟨d, hd, hdo, -⟩ := hb b c h
    rw [hdo]
    exact hs.apart p (hu p hp) b d hd
  · intro b c h
    obtain ⟨d, hd, hdo, -⟩ := hb b c h
    rw [hdo, hh]
    exact hs.bound b d hd
  · intro p hp
    rw [hh]
    exact hs.ubound p (hu p hp)

/-- Reading a list of blocks after one of them has been replaced. -/
theorem get_set_cases (l : List CtrlBlock) (b b1 : Nat) (x c1 : CtrlBlock)
    (h : (l.set b x)[b1]? = some c1) :
    (b1 = b ∧ c1 = x ∧ b < l.length) ∨ (b1 ≠ b ∧ l[b1]? = some c1) := by
  by_cases hbb : b1 = b
  · subst hbb
    left
    have hlt : b1 < l.length := by
      rcases Nat.lt_or_ge b1 l.length with h1 | h1
      · exact h1
      · rw [List.getElem?_eq_none (by simpa using h1)] at h; cases h
    simp [hlt] at h
    exact ⟨rfl, h.symm, hlt⟩
  · right
    have hne : b ≠ b1 := fun e => hbb e.symm
    rw [List.getElem?_set_ne hne] at h
    exact ⟨hbb, h⟩

/-- An object that is alive stays alive when another object is allocated. -/
theorem alive_append (l : List Bool) (p : Nat) (h : l[p]? = some true) :
    (l ++ [true])[p]? = some true := by
  have hlt : p < l.length := by
    rcases Nat.lt_or_ge p l.length with h1 | h1
    · exact h1
    · rw [List.getElem?_eq_none h1] at h; cases h
  rw [List.getElem?_append_left hlt]
  exact h

/-- A binding found by `lookupIn` is in the frame. -/
theorem lookupIn_mem (x : Var) (h : Handle) (f : List (Var × Handle))
    (hl : lookupIn x f = some h) : (x, h) ∈ f := by
  induction f with
  | nil => cases hl
  | cons yh rest ih =>
    obtain ⟨y, g⟩ := yh
    simp only [lookupIn] at hl
    by_cases hy : y = x
    · simp only [hy, if_true, Option.some.injEq] at hl
      subst hl; subst hy
      exact List.mem_cons_self _ _
    · simp only [hy, if_false] at hl
      exact List.mem_cons_of_mem _ (ih hl)

/-- A binding found by `lookupScopes` is in one of the frames. -/
theorem lookupScopes_mem (x : Var) (h : Handle) (fs : List (List (Var × Handle)))
    (hl : lookupScopes x fs = some h) : ∃ f ∈ fs, (x, h) ∈ f := by
  induction fs with
  | nil => cases hl
  | cons f rest ih =>
    simp only [lookupScopes] at hl
    cases hf : lookupIn x f with
    | some g =>
      simp only [hf, Option.some.injEq] at hl
      subst hl
      exact ⟨f, List.mem_cons_self _ _, lookupIn_mem x g f hf⟩
    | none =>
      simp only [hf] at hl
      obtain ⟨f1, hf1, hm⟩ := ih hl
      exact ⟨f1, List.mem_cons_of_mem _ hf1, hm⟩

/-- A `shared_ptr` variable in scope counts as an owner of its block. -/
theorem owner_in_scope (s : State) (y : Var) (b : Nat)
    (hl : s.lookup y = some (.shared_ptr (some b))) : 1 ≤ s.owners b := by
  obtain ⟨f, hf, hm⟩ := lookupScopes_mem y _ s.scopes hl
  have h1 : 0 < f.countP (owning b) := by
    rw [List.countP_pos_iff]
    exact ⟨_, hm, by simp [owning]⟩
  have h2 : f.countP (owning b) ≤ (s.scopes.map (List.countP (owning b))).sum :=
    List.single_le_sum (fun _ _ => Nat.zero_le _) _ (List.mem_map_of_mem _ hf)
  simp only [State.owners]
  omega

/-- A `unique_ptr` in scope once a frame has been pushed was in scope before,
or is in the new frame. -/
theorem uniqueIn_push (p : Nat) (s s1 : State) (f : List (Var × Handle))
    (h1 : s1.scopes = f :: s.scopes) (hp : uniqueIn p s1) :
    (∃ x, (x, Handle.unique_ptr (some p)) ∈ f) ∨ uniqueIn p s := by
  obtain ⟨g, hg, x, hx⟩ := hp
  rw [h1] at hg
  rcases List.mem_cons.mp hg with e | e
  · subst e
    exact Or.inl ⟨x, hx⟩
  · exact Or.inr ⟨g, e, x, hx⟩

/-- A `unique_ptr` in scope once a local has been declared is that local or
was in scope before. -/
theorem uniqueIn_declare (p : Nat) (s s1 : State) (x : Var) (h : Handle)
    (hd : s.declare x h = some s1) (hp : uniqueIn p s1) :
    h = .unique_ptr (some p) ∨ uniqueIn p s := by
  unfold State.declare at hd
  cases hs : s.scopes with
  | nil => simp [hs] at hd
  | cons f fs =>
    simp only [hs, Option.some.injEq] at hd
    subst hd
    obtain ⟨g, hg, y, hy⟩ := hp
    rcases List.mem_cons.mp hg with e | e
    · subst e
      rcases List.mem_cons.mp hy with e1 | e1
      · left
        simp only [Prod.mk.injEq] at e1
        exact e1.2.symm
      · right
        exact ⟨f, by simp [hs], y, e1⟩
    · right
      exact ⟨g, by simp [hs, e], y, hy⟩

/-- A `unique_ptr` in scope once a local has gone out of scope was in scope
before. -/
theorem uniqueIn_pop (p : Nat) (s s1 : State) (xh : Var × Handle)
    (f : List (Var × Handle)) (fs : List (List (Var × Handle)))
    (hs : s.scopes = (xh :: f) :: fs) (h1 : s1.scopes = f :: fs) (hp : uniqueIn p s1) :
    uniqueIn p s := by
  obtain ⟨g, hg, y, hy⟩ := hp
  rw [h1] at hg
  rcases List.mem_cons.mp hg with e | e
  · subst e
    exact ⟨xh :: g, by simp [hs], y, List.mem_cons_of_mem _ hy⟩
  · exact ⟨g, by simp [hs, e], y, hy⟩

/-- Deleting an object that no block with a positive owner counter manages
keeps the state safe. -/
theorem safe_delete (s0 s s1 : State) (p : Nat) (hs : Safe s0)
    (hh : s.heap = s0.heap)
    (hb : ∀ (b : Nat) (c1 : CtrlBlock), s.blocks[b]? = some c1 →
      ∃ c, s0.blocks[b]? = some c ∧ c1.obj = c.obj ∧
        (0 < c1.strong → s0.alive c.obj = true ∧ c.obj ≠ p))
    (hu : ∀ q, uniqueIn q s → uniqueIn q s0)
    (hd : delete_Entity p s = some s1) : Safe s1 := by
  unfold delete_Entity at hd
  split at hd
  · simp only [Option.some.injEq] at hd
    subst hd
    constructor
    · intro b c1 h1 hpos
      obtain ⟨c, hc, ho, ha⟩ := hb b c1 (by simpa [Entity.dtor, State.write] using h1)
      obtain ⟨ha1, ha2⟩ := ha hpos
      have hne : p ≠ c.obj := fun e => ha2 e.symm
      simp only [State.alive, decide_eq_true_eq] at ha1 ⊢
      rw [ho, hh, List.getElem?_set_ne hne]
      exact ha1
    · intro b b1 c c1 h h1 ho
      obtain ⟨d, hd, hdo, -⟩ := hb b c (by simpa [Entity.dtor, State.write] using h)
      obtain ⟨d1, hd1, hdo1, -⟩ := hb b1 c1 (by simpa [Entity.dtor, State.write] using h1)
      exact hs.inj b b1 d d1 hd hd1 (by rw [← hdo, ← hdo1, ho])
    · intro q hq b c h
      obtain ⟨d, hd, hdo, -⟩ := hb b c (by simpa [Entity.dtor, State.write] using h)
      rw [hdo]
      exact hs.apart q (hu q (by simpa [uniqueIn, Entity.dtor, State.write] using hq)) b d hd
    · intro b c h
      obtain ⟨d, hd, hdo, -⟩ := hb b c (by simpa [Entity.dtor, State.write] using h)
      have := hs.bound b d hd
      simp only [List.length_set]
      rw [hdo, hh]
      exact this
    · intro q hq
      have := hs.ubound q (hu q (by simpa [uniqueIn, Entity.dtor, State.write] using hq))
      simp only [List.length_set]
      rw [hh]
      exact this
  · cases hd

/-- Replacing a block by one with the same object, whose owner counter is
positive only if the object is alive, meets the condition of
`safe_of_frame`. -/
theorem frame_set (s0 : State) (hs : Safe s0) (b : Nat) (c x : CtrlBlock)
    (hb : s0.blocks[b]? = some c) (hobj : x.obj = c.obj)
    (hk : 0 < x.strong → s0.alive c.obj = true) :
    ∀ (b1 : Nat) (c1 : CtrlBlock), (s0.blocks.set b x)[b1]? = some c1 →
      ∃ d, s0.blocks[b1]? = some d ∧ c1.obj = d.obj ∧
        (0 < c1.strong → s0.alive d.obj = true) := by
  intro b1 c1 h1
  rcases get_set_cases _ _ _ _ _ h1 with ⟨e1, e2, -⟩ | ⟨-, e2⟩
  · subst e1; subst e2
    exact ⟨c, hb, hobj, hk⟩
  · exact ⟨c1, e2, rfl, hs.kept b1 c1 e2⟩

/-- Destroying a local that has just gone out of scope keeps the state safe,
provided that the owner counter of a block that the local owned does not
read 0. -/
theorem destroy_safe (s0 s1 : State) (x : Var) (h : Handle)
    (f : List (Var × Handle)) (fs : List (List (Var × Handle)))
    (hsc : s0.scopes = ((x, h) :: f) :: fs) (hs : Safe s0)
    (hpos : ∀ (b : Nat) (c : CtrlBlock), h = .shared_ptr (some b) →
      s0.blocks[b]? = some c → c.strong ≠ 0)
    (hd : destroy { s0 with scopes := f :: fs } h = some s1) : Safe s1 := by
  have hu0 : ∀ q, uniqueIn q { s0 with scopes := f :: fs } → uniqueIn q s0 :=
    fun q hq => uniqueIn_pop q s0 _ (x, h) f fs hsc rfl hq
  have hsame : ∀ (b : Nat) (c1 : CtrlBlock), s0.blocks[b]? = some c1 →
      ∃ c, s0.blocks[b]? = some c ∧ c1.obj = c.obj ∧ (0 < c1.strong → s0.alive c.obj = true) :=
    fun b c1 h1 => ⟨c1, h1, rfl, hs.kept b c1 h1⟩
  cases h with
  | unique_ptr p =>
    cases p with
    | none =>
      simp only [destroy, Option.some.injEq] at hd
      subst hd
      exact safe_of_frame s0 _ hs rfl hsame hu0
    | some p =>
      simp only [destroy] at hd
      refine safe_delete s0 { s0 with scopes := f :: fs } s1 p hs rfl ?_ hu0 hd
      intro b c1 h1
      refine ⟨c1, h1, rfl, fun hpos => ⟨hs.kept b c1 h1 hpos, ?_⟩⟩
      exact hs.apart p ⟨_, by rw [hsc]; exact List.mem_cons_self _ _, x,
        List.mem_cons_self _ _⟩ b c1 h1
  | weak_ptr w =>
    cases w with
    | none =>
      simp only [destroy, Option.some.injEq] at hd
      subst hd
      exact safe_of_frame s0 _ hs rfl hsame hu0
    | some b =>
      simp only [destroy] at hd
      cases hb : s0.blocks[b]? with
      | none => simp [hb] at hd
      | some c =>
        simp only [hb, Option.some.injEq] at hd
        subst hd
        exact safe_of_frame s0 _ hs rfl
          (frame_set s0 hs b c _ hb rfl (hs.kept b c hb)) hu0
  | shared_ptr w =>
    cases w with
    | none =>
      simp only [destroy, Option.some.injEq] at hd
      subst hd
      exact safe_of_frame s0 _ hs rfl hsame hu0
    | some b =>
      simp only [destroy] at hd
      cases hb : s0.blocks[b]? with
      | none => simp [hb] at hd
      | some c =>
        simp only [hb] at hd
        have h0 : c.strong ≠ 0 := hpos b c rfl hb
        · by_cases h1 : c.strong = 1
          · rw [if_pos h1] at hd
            refine safe_delete s0
              { s0 with blocks := s0.blocks.set b { c with strong := 0 }, scopes := f :: fs }
              s1 c.obj hs rfl ?_ ?_ hd
            · intro b1 c1 hc1
              rcases get_set_cases _ _ _ _ _ hc1 with ⟨e1, e2, -⟩ | ⟨e1, e2⟩
              · subst e1; subst e2
                exact ⟨c, hb, rfl, fun hpos => absurd hpos (by simp)⟩
              · refine ⟨c1, e2, rfl, fun hpos => ⟨hs.kept b1 c1 e2 hpos, ?_⟩⟩
                intro ho
                exact e1 (hs.inj b1 b c1 c e2 hb ho)
            · intro q hq
              exact hu0 q (by simpa [uniqueIn] using hq)
          · rw [if_neg h1] at hd
            simp only [Option.some.injEq] at hd
            subst hd
            exact safe_of_frame s0 _ hs rfl
              (frame_set s0 hs b c _ hb rfl (fun _ => hs.kept b c hb (by omega))) hu0

/-- Declaring a local touches neither the heap nor the control blocks. -/
theorem declare_frame (s s1 : State) (x : Var) (h : Handle)
    (hd : s.declare x h = some s1) : s1.heap = s.heap ∧ s1.blocks = s.blocks := by
  unfold State.declare at hd
  cases hs : s.scopes with
  | nil => simp [hs] at hd
  | cons f fs =>
    simp only [hs, Option.some.injEq] at hd
    subst hd
    exact ⟨rfl, rfl⟩

/-- Allocating an object for a new `unique_ptr` keeps the state safe. -/
theorem safe_alloc_unique (s s1 : State) (hs : Safe s)
    (hh : s1.heap = s.heap ++ [true]) (hb : s1.blocks = s.blocks)
    (hu : ∀ q, uniqueIn q s1 → q = s.heap.length ∨ uniqueIn q s) : Safe s1 := by
  constructor
  · intro b c h hpos
    rw [hb] at h
    have := hs.kept b c h hpos
    simp only [State.alive, decide_eq_true_eq] at this ⊢
    rw [hh]
    exact alive_append _ _ this
  · intro b b1 c c1 h h1 ho
    rw [hb] at h h1
    exact hs.inj b b1 c c1 h h1 ho
  · intro q hq b c h
    rw [hb] at h
    rcases hu q hq with e | e
    · have := hs.bound b c h
      omega
    · exact hs.apart q e b c h
  · intro b c h
    rw [hb] at h
    have := hs.bound b c h
    rw [hh, List.length_append]
    simp only [List.length_singleton]
    omega
  · intro q hq
    rw [hh, List.length_append]
    simp only [List.length_singleton]
    rcases hu q hq with e | e
    · omega
    · have := hs.ubound q e
      omega

/-- Reading a list of blocks after one has been appended. -/
theorem get_append_cases (l : List CtrlBlock) (b : Nat) (x c1 : CtrlBlock)
    (h : (l ++ [x])[b]? = some c1) :
    (b = l.length ∧ c1 = x) ∨ (b < l.length ∧ l[b]? = some c1) := by
  rcases Nat.lt_or_ge b l.length with hlt | hge
  · right
    rw [List.getElem?_append_left hlt] at h
    exact ⟨hlt, h⟩
  · left
    rw [List.getElem?_append_right hge] at h
    have hb : b - l.length = 0 := by
      rcases Nat.eq_zero_or_pos (b - l.length) with e | e
      · exact e
      · rw [List.getElem?_eq_none (by simp only [List.length_singleton]; omega)] at h
        cases h
    rw [hb] at h
    simp only [List.getElem?_cons_zero, Option.some.injEq] at h
    exact ⟨by omega, h.symm⟩

/-- Allocating an object and its control block for a new `shared_ptr` keeps
the state safe. -/
theorem safe_alloc_shared (s s1 : State) (hs : Safe s)
    (hh : s1.heap = s.heap ++ [true])
    (hb : s1.blocks = s.blocks ++ [⟨s.heap.length, 1, 0⟩])
    (hu : ∀ q, uniqueIn q s1 → uniqueIn q s) : Safe s1 := by
  constructor
  · intro b c h hpos
    rw [hb] at h
    simp only [State.alive, decide_eq_true_eq]
    rw [hh]
    rcases get_append_cases _ _ _ _ h with ⟨-, e⟩ | ⟨-, e⟩
    · subst e
      simp
    · have := hs.kept b c e hpos
      simp only [State.alive, decide_eq_true_eq] at this
      exact alive_append _ _ this
  · intro b b1 c c1 h h1 ho
    rw [hb] at h h1
    rcases get_append_cases _ _ _ _ h with ⟨e0, e⟩ | ⟨e0, e⟩
    · rcases get_append_cases _ _ _ _ h1 with ⟨e2, e1⟩ | ⟨e2, e1⟩
      · omega
      · have := hs.bound b1 c1 e1
        subst e
        simp only at ho
        omega
    · rcases get_append_cases _ _ _ _ h1 with ⟨e2, e1⟩ | ⟨e2, e1⟩
      · have := hs.bound b c e
        subst e1
        simp only at ho
        omega
      · exact hs.inj b b1 c c1 e e1 ho
  · intro q hq b c h
    rw [hb] at h
    rcases get_append_cases _ _ _ _ h with ⟨-, e⟩ | ⟨-, e⟩
    · have := hs.ubound q (hu q hq)
      subst e
      simp only
      omega
    · exact hs.apart q (hu q hq) b c e
  · intro b c h
    rw [hb] at h
    rw [hh, List.length_append]
    simp only [List.length_singleton]
    rcases get_append_cases _ _ _ _ h with ⟨-, e⟩ | ⟨-, e⟩
    · subst e
      simp only
      omega
    · have := hs.bound b c e
      omega
  · intro q hq
    rw [hh, List.length_append]
    simp only [List.length_singleton]
    have := hs.ubound q (hu q hq)
    omega

/-- Copying a `shared_ptr` whose object is alive leaves heap and scopes alone
and keeps the blocks as `safe_of_frame` asks; the copy is not a `unique_ptr`. -/
theorem shared_copy_frame (s s1 : State) (cb : Option Nat) (h : Handle) (hs : Safe s)
    (hal : ∀ (b : Nat) (c : CtrlBlock), cb = some b → s.blocks[b]? = some c →
      s.alive c.obj = true)
    (hc : shared_copy s cb = some (h, s1)) :
    s1.heap = s.heap ∧ s1.scopes = s.scopes ∧ (∀ p, h ≠ .unique_ptr (some p)) ∧
      BlocksKept s s1 := by
  cases cb with
  | none =>
    simp only [shared_copy, Option.some.injEq, Prod.mk.injEq] at hc
    obtain ⟨rfl, rfl⟩ := hc
    exact ⟨rfl, rfl, (fun p e => by cases e), fun b c1 h1 => ⟨c1, h1, rfl, hs.kept b c1 h1⟩⟩
  | some b0 =>
    simp only [shared_copy] at hc
    cases hb : s.blocks[b0]? with
    | none => simp [hb] at hc
    | some c =>
      simp only [hb, Option.some.injEq, Prod.mk.injEq] at hc
      obtain ⟨rfl, rfl⟩ := hc
      exact ⟨rfl, rfl, (fun p e => by cases e),
        frame_set s hs b0 c _ hb rfl (fun _ => hal b0 c rfl hb)⟩

/-- Registering an observer leaves heap and scopes alone and keeps the blocks
as `safe_of_frame` asks; the observer is not a `unique_ptr`. -/
theorem weak_from_shared_frame (s s1 : State) (cb : Option Nat) (h : Handle) (hs : Safe s)
    (hc : weak_from_shared s cb = some (h, s1)) :
    s1.heap = s.heap ∧ s1.scopes = s.scopes ∧ (∀ p, h ≠ .unique_ptr (some p)) ∧
      BlocksKept s s1 := by
  cases cb with
  | none =>
    simp only [weak_from_shared, Option.some.injEq, Prod.mk.injEq] at hc
    obtain ⟨rfl, rfl⟩ := hc
    exact ⟨rfl, rfl, (fun p e => by cases e), fun b c1 h1 => ⟨c1, h1, rfl, hs.kept b c1 h1⟩⟩
  | some b0 =>
    simp only [weak_from_shared] at hc
    cases hb : s.blocks[b0]? with
    | none => simp [hb] at hc
    | some c =>
      simp only [hb, Option.some.injEq, Prod.mk.injEq] at hc
      obtain ⟨rfl, rfl⟩ := hc
      exact ⟨rfl, rfl, (fun p e => by cases e),
        frame_set s hs b0 c _ hb rfl (hs.kept b0 c hb)⟩

/-- Promotion by `lock()` leaves heap and scopes alone and keeps the blocks as
`safe_of_frame` asks; the result is not a `unique_ptr`. -/
theorem lock_frame (s s1 : State) (cb : Option Nat) (h : Handle) (hs : Safe s)
    (hc : lock s cb = some (h, s1)) :
    s1.heap = s.heap ∧ s1.scopes = s.scopes ∧ (∀ p, h ≠ .unique_ptr (some p)) ∧
      BlocksKept s s1 := by
  cases cb with
  | none =>
    simp only [lock, Option.some.injEq, Prod.mk.injEq] at hc
    obtain ⟨rfl, rfl⟩ := hc
    exact ⟨rfl, rfl, (fun p e => by cases e), fun b c1 h1 => ⟨c1, h1, rfl, hs.kept b c1 h1⟩⟩
  | some b0 =>
    simp only [lock] at hc
    cases hb : s.blocks[b0]? with
    | none => simp [hb] at hc
    | some c =>
      simp only [hb] at hc
      by_cases h0 : c.strong = 0
      · rw [if_pos h0] at hc
        simp only [Option.some.injEq, Prod.mk.injEq] at hc
        obtain ⟨rfl, rfl⟩ := hc
        exact ⟨rfl, rfl, (fun p e => by cases e),
          fun b c1 h1 => ⟨c1, h1, rfl, hs.kept b c1 h1⟩⟩
      · rw [if_neg h0] at hc
        simp only [Option.some.injEq, Prod.mk.injEq] at hc
        obtain ⟨rfl, rfl⟩ := hc
        exact ⟨rfl, rfl, (fun p e => by cases e),
          frame_set s hs b0 c _ hb rfl (fun _ => hs.kept b0 c hb (by omega))⟩

/-- Declaring a local that is not a `unique_ptr`, after an update that
`safe_of_frame` accepts, keeps the state safe. -/
theorem safe_declare_after (s s1 s2 : State) (x : Var) (h : Handle) (hs : Safe s)
    (hf : s1.heap = s.heap ∧ s1.scopes = s.scopes ∧ (∀ p, h ≠ .unique_ptr (some p)) ∧
      BlocksKept s s1)
    (hd : s1.declare x h = some s2) : Safe s2 := by
  obtain ⟨e1, e2, e3, e4⟩ := hf
  obtain ⟨d1, d2⟩ := declare_frame _ _ _ _ hd
  refine safe_of_frame s s2 hs (by rw [d1, e1]) ?_ ?_
  · intro b c1 h1
    rw [d2] at h1
    exact e4 b c1 h1
  · intro q hq
    rcases uniqueIn_declare q s1 s2 x h hd hq with e | e
    · exact absurd e (e3 q)
    · simpa [uniqueIn, e2] using e

/-- Executing a statement keeps a counted state safe, provided that fewer than
2 to the power 32 owners of any one block are in scope. -/
theorem exec_safe (s : State) (k : List Instr) (st : Stmt) (a : Action) (c1 : Config)
    (h : exec s k st = some (a, c1)) (hc : Counted s) (hs : Safe s)
    (hroom : ∀ b, s.owners b < wordSize) : Safe c1.st := by
  have hsame : BlocksKept s s := fun b c1 h1 => ⟨c1, h1, rfl, hs.kept b c1 h1⟩
  cases st with
  | cout text =>
    simp only [exec, Option.some.injEq, Prod.mk.injEq] at h
    obtain ⟨-, rfl⟩ := h
    exact safe_of_frame s _ hs rfl hsame (fun q hq => hq)
  | make_unique x =>
    simp only [exec] at h
    split at h
    · rename_i s1 hd
      simp only [Option.some.injEq, Prod.mk.injEq] at h
      obtain ⟨-, rfl⟩ := h
      obtain ⟨d1, d2⟩ := declare_frame _ _ _ _ hd
      refine safe_alloc_unique s s1 hs (by rw [d1]; rfl) (by rw [d2]; rfl) ?_
      intro q hq
      rcases uniqueIn_declare q _ s1 x _ hd hq with e | e
      · left
        simp only [Handle.unique_ptr.injEq, Option.some.injEq] at e
        exact e.symm
      · right
        exact e
    · cases h
  | arrow_Print x =>
    simp only [exec] at h
    split at h
    · split at h
      · simp only [Option.some.injEq, Prod.mk.injEq] at h
        obtain ⟨-, rfl⟩ := h
        exact safe_of_frame s _ hs rfl hsame (fun q hq => hq)
      · cases h
    · cases h
  | make_shared x =>
    simp only [exec] at h
    split at h
    · rename_i s1 hd
      simp only [Option.some.injEq, Prod.mk.injEq] at h
      obtain ⟨-, rfl⟩ := h
      obtain ⟨d1, d2⟩ := declare_frame _ _ _ _ hd
      refine safe_alloc_shared s s1 hs (by rw [d1]; rfl) (by rw [d2]; rfl) ?_
      intro q hq
      rcases uniqueIn_declare q _ s1 x _ hd hq with e | e
      · cases e
      · exact e
    · cases h
  | copy_init x y =>
    simp only [exec] at h
    split at h
    · rename_i cb hl
      split at h
      · rename_i hh s1 hcp
        split at h
        · rename_i s2 hd
          simp only [Option.some.injEq, Prod.mk.injEq] at h
          obtain ⟨-, rfl⟩ := h
          refine safe_declare_after s s1 s2 x hh hs
            (shared_copy_frame s s1 cb hh hs ?_ hcp) hd
          intro b c e hb
          subst e
          have h1 := owner_in_scope s y b hl
          have h2 := (hc b).1
          have h3 := hroom b
          simp only [use_word, hb] at h2
          rw [Nat.mod_eq_of_lt h3] at h2
          exact hs.kept b c hb (by omega)
        · cases h
      · cases h
    · cases h
  | cout_use_count p y q =>
    simp only [exec] at h
    split at h
    · simp only [Option.some.injEq, Prod.mk.injEq] at h
      obtain ⟨-, rfl⟩ := h
      exact safe_of_frame s _ hs rfl hsame (fun q hq => hq)
    · cases h
  | weak_init x y =>
    simp only [exec] at h
    split at h
    · rename_i cb hl
      split at h
      · rename_i hh s1 hcp
        split at h
        · rename_i s2 hd
          simp only [Option.some.injEq, Prod.mk.injEq] at h
          obtain ⟨-, rfl⟩ := h
          exact safe_declare_after s s1 s2 x hh hs
            (weak_from_shared_frame s s1 cb hh hs hcp) hd
        · cases h
      · cases h
    · cases h
  | if_lock x w thn els =>
    simp only [exec] at h
    split at h
    · rename_i cb hl
      split at h
      · rename_i hh s1 hcp
        simp only [Option.some.injEq, Prod.mk.injEq] at h
        obtain ⟨-, rfl⟩ := h
        obtain ⟨e1, e2, e3, e4⟩ := lock_frame s s1 cb hh hs hcp
        refine safe_of_frame s _ hs e1 e4 ?_
        intro q hq
        rcases uniqueIn_push q s1 _ [(x, hh)] rfl hq with ⟨z, hz⟩ | e
        · simp only [List.mem_singleton, Prod.mk.injEq] at hz
          exact absurd hz.2.symm (e3 q)
        · simpa [uniqueIn, e2] using e
      · cases h
    · cases h
  | ret code =>
    simp only [exec, Option.some.injEq, Prod.mk.injEq] at h
    obtain ⟨-, rfl⟩ := h
    exact safe_of_frame s _ hs rfl hsame (fun q hq => hq)

/-- Every step keeps a counted state safe, provided that fewer than 2 to the
power 32 owners of any one block are in scope. -/
theorem step_safe (c c1 : Config) (a : Action)
    (h : step c = some (a, c1)) (hc : Counted c.st) (hs : Safe c.st)
    (hroom : ∀ b, c.st.owners b < wordSize) : Safe c1.st := by
  obtain ⟨s, code⟩ := c
  have hsame : BlocksKept s s := fun b c1 h1 => ⟨c1, h1, rfl, hs.kept b c1 h1⟩
  cases code with
  | nil => simp [step] at h
  | cons i k =>
    cases i with
    | enter =>
      simp [step] at h
      obtain ⟨-, rfl⟩ := h
      refine safe_of_frame s _ hs rfl hsame ?_
      intro q hq
      rcases uniqueIn_push q s _ [] rfl hq with ⟨z, hz⟩ | e
      · cases hz
      · exact e
    | leave =>
      cases hsc : s.scopes with
      | nil => simp [step, hsc] at h
      | cons f fs =>
        cases f with
        | nil =>
          simp [step, hsc] at h
          obtain ⟨-, rfl⟩ := h
          refine safe_of_frame s _ hs rfl hsame ?_
          intro q hq
          obtain ⟨g, hg, z, hz⟩ := hq
          exact ⟨g, by rw [hsc]; exact List.mem_cons_of_mem _ hg, z, hz⟩
        | cons xh f =>
          obtain ⟨x, hd⟩ := xh
          simp only [step, hsc] at h
          cases hdes : destroy { s with scopes := f :: fs } hd with
          | none => simp [hdes] at h
          | some s1 =>
            simp only [hdes, Option.some.injEq, Prod.mk.injEq] at h
            obtain ⟨-, rfl⟩ := h
            refine destroy_safe s s1 x hd f fs hsc hs ?_ hdes
            intro b c e hb
            subst e
            have hcs : Counted s := hc
            have h2 := (hcs b).1
            have h3 : s.owners b < wordSize := hroom b
            have h4 : 1 ≤ s.owners b := by
              simp only [State.owners, hsc, List.map_cons, List.sum_cons, List.countP_cons,
                owning, decide_True, if_true]
              omega
            simp only [use_word, hb] at h2
            rw [Nat.mod_eq_of_lt h3] at h2
            omega
    | stmt st => exact exec_safe s k st a c1 (by simpa [step] using h) hc hs hroom

/-- From a counted and safe configuration in which at most `n` owners of any
one block are in scope, a run of at most `fuel` steps with `n + fuel` not above
2 to the power 32 goes through counted and safe states only, with fewer than
`n + fuel` owners in scope before each step. -/
theorem steps_invariant (fuel n : Nat) (c : Config) (hc : Counted c.st) (hs : Safe c.st)
    (hn : ∀ b, c.st.owners b ≤ n) (hfuel : n + fuel ≤ wordSize) :
    ∀ t ∈ steps fuel c,
      (Counted t.before ∧ Safe t.before ∧ ∀ b, t.before.owners b < n + fuel) ∧
      (Counted t.after ∧ Safe t.after) := by
  induction fuel generalizing c n with
  | zero => intro t ht; simp [steps] at ht
  | succ m ih =>
    intro t ht
    simp only [steps] at ht
    cases hst : step c with
    | none => simp [hst] at ht
    | some r =>
      obtain ⟨a, c1⟩ := r
      simp only [hst, List.mem_cons] at ht
      have hroom : ∀ b, c.st.owners b < wordSize := fun b => by
        have := hn b
        omega
      obtain ⟨hc1, ho1⟩ := step_counted c c1 a hst hc
      have hs1 := step_safe c c1 a hst hc hs hroom
      rcases ht with e | e
      · subst e
        have hlt : ∀ b, c.st.owners b < n + (m + 1) := fun b => by
          have := hn b
          omega
        exact ⟨⟨hc, hs, hlt⟩, ⟨hc1, hs1⟩⟩
      · have := ih (n + 1) c1 hc1 hs1 (fun b => by
          have h1 := ho1 b
          have h2 := hn b
          omega) (by omega) t e
        rw [show n + 1 + m = n + (m + 1) by omega] at this
        exact this

/-- The hypotheses of the amended C7 hold in every state that a program can be
in within 2147483647 steps from the start state: the owner counter of a
control block holds the number of owners in scope, the counter can count one
more owner without overflow, and the object is alive while the counter is
positive. -/
theorem reachable_counted_safe (fuel : Nat) (code : List Instr)
    (hfuel : fuel < 2147483648) :
    ∀ t ∈ steps fuel ⟨State.start, code⟩, ∀ (b : Nat) (c : CtrlBlock),
      t.before.blocks[b]? = some c →
        c.strong = t.before.owners b % wordSize ∧ t.before.owners b + 1 < 2147483648 ∧
          (0 < c.strong → t.before.alive c.obj = true) := by
  intro t ht b c hb
  have hn : ∀ b, State.start.owners b ≤ 0 := fun b => by simp [State.owners, State.start]
  obtain ⟨⟨hc, hs, hroom⟩, -⟩ :=
    steps_invariant fuel 0 ⟨State.start, code⟩ counted_start safe_start hn
      (by simp only [wordSize]; omega) t ht
  have h := (hc b).1
  have h1 := hroom b
  simp only [use_word, hb] at h
  exact ⟨h, by omega, hs.kept b c hb⟩

/-- Without the bound the owner counters stay counted all the same: every state
of every run from the start state is counted. -/
theorem reachable_counted (fuel : Nat) (c : Config) (hc : Counted c.st) :
    ∀ t ∈ steps fuel c, Counted t.before ∧ Counted t.after := by
  induction fuel generalizing c with
  | zero => intro t ht; simp [steps] at ht
  | succ m ih =>
    intro t ht
    simp only [steps] at ht
    cases hst : step c with
    | none => simp [hst] at ht
    | some r =>
      obtain ⟨a, c1⟩ := r
      simp only [hst, List.mem_cons] at ht
      obtain ⟨hc1, -⟩ := step_counted c c1 a hst hc
      rcases ht with e | e
      · subst e
        exact ⟨hc, hc1⟩
      · exact ih c1 hc1 t e

end SmartPointers
